import Mathlib

/-!
Verification of the warehouse AGV navigation core
(`Lab3-Warehouse-AGVs/warehouse_agv_model.py`).

The Python source is embedded shallowly: each Python function becomes a Lean
definition with the same structure, machine state (the Mesa model, its grid
and its agents) becomes an explicit record, and the two sources of
nondeterminism (Python's `random` module and the priority queue's internal
layout) become explicit parameters (an oracle stream of naturals, and a
frontier-selection function constrained by a specification).
-/

namespace Warehouse

/-- A grid coordinate `(x, y)`.  Python positions are tuples of ints. -/
abbrev Cell := Int × Int

/-- The closed set of agent classes that can occupy a cell:
`WallAgent`, `ShelfAgent`, `ChargingStationAgent`, `DropoffPointAgent`,
`AGVAgent`. -/
inductive Kind : Type where
  | wall
  | shelf
  | chargingStation
  | dropoff
  | agv
deriving DecidableEq, Repr

/-- View of `mesa.space.MultiGrid` as used by `astar`: dimensions plus the
multiset of occupant kinds at each cell (`get_cell_list_contents`).  Only the
kinds of the occupants are ever inspected by the pathfinder. -/
structure Grid : Type where
  width : Nat
  height : Nat
  contents : Cell → List Kind

/-- `heuristic(pos1, pos2)`: Manhattan distance
`abs(pos1[0]-pos2[0]) + abs(pos1[1]-pos2[1])`. -/
def heuristic (pos1 pos2 : Cell) : Int :=
  |pos1.1 - pos2.1| + |pos1.2 - pos2.2|

/-- One frontier record of `astar`'s priority queue:
the tuple `(f_score, counter, position, path)`. -/
structure Entry : Type where
  f : Int
  counter : Nat
  pos : Cell
  path : List Cell
deriving DecidableEq, Repr

/-- The priority-queue ordering key of a frontier tuple.  Python's
`PriorityQueue` orders tuples lexicographically; since every entry carries a
distinct `counter`, comparison never reaches the position or path
components, so the key is `(f_score, counter)`. -/
def entryKey (e : Entry) : Int × Nat :=
  (e.f, e.counter)

/-- Lexicographic order on priority-queue keys. -/
def keyLe (a b : Int × Nat) : Prop :=
  a.1 < b.1 ∨ (a.1 = b.1 ∧ a.2 ≤ b.2)

instance : DecidablePred fun p : (Int × Nat) × (Int × Nat) => keyLe p.1 p.2 :=
  fun p => by unfold keyLe; infer_instance

instance (a b : Int × Nat) : Decidable (keyLe a b) := by
  unfold keyLe; infer_instance

theorem keyLe_refl (a : Int × Nat) : keyLe a a := by
  right; exact ⟨rfl, le_refl _⟩

theorem keyLe_trans {a b c : Int × Nat} (h1 : keyLe a b) (h2 : keyLe b c) :
    keyLe a c := by
  rcases h1 with h1 | ⟨h1, h1'⟩ <;> rcases h2 with h2 | ⟨h2, h2'⟩
  · exact Or.inl (lt_trans h1 h2)
  · exact Or.inl (h2 ▸ h1)
  · exact Or.inl (h1 ▸ h2)
  · exact Or.inr ⟨h1.trans h2, h1'.trans h2'⟩

theorem keyLe_total (a b : Int × Nat) : keyLe a b ∨ keyLe b a := by
  unfold keyLe; omega

theorem keyLe_antisymm {a b : Int × Nat} (h1 : keyLe a b) (h2 : keyLe b a) :
    a = b := by
  unfold keyLe at h1 h2
  have : a.1 = b.1 ∧ a.2 = b.2 := by omega
  exact Prod.ext this.1 this.2

theorem not_keyLe {a b : Int × Nat} (h : ¬ keyLe a b) : keyLe b a :=
  (keyLe_total a b).resolve_left h

/-- The concrete behaviour of `queue.PriorityQueue.get` on the frontier:
return the entry with the least `(f_score, counter)` key together with the
remaining entries.  (Keys are pairwise distinct in every frontier `astar`
builds, so any binary-heap implementation returns the same entry; this is
proved as the tie-determinism claim below.) -/
def popMin : List Entry → Option (Entry × List Entry)
  | [] => none
  | e :: es =>
    match popMin es with
    | none => some (e, [])
    | some (m, r) =>
      if keyLe (entryKey e) (entryKey m) then some (e, es) else some (m, e :: r)

/-- Bounds test `0 <= next_pos[0] < grid.width and 0 <= next_pos[1] < grid.height`. -/
def inBounds (grid : Grid) (p : Cell) : Prop :=
  0 ≤ p.1 ∧ p.1 < (grid.width : Int) ∧ 0 ≤ p.2 ∧ p.2 < (grid.height : Int)

instance (grid : Grid) (p : Cell) : Decidable (inBounds grid p) := by
  unfold inBounds; infer_instance

/-- `is_obstacle = any(isinstance(agent, tuple(obstacles)) for agent in cell_contents)`. -/
def isObstacle (grid : Grid) (obstacles : List Kind) (p : Cell) : Prop :=
  ∃ k ∈ grid.contents p, k ∈ obstacles

instance (grid : Grid) (obstacles : List Kind) (p : Cell) :
    Decidable (isObstacle grid obstacles p) := by
  unfold isObstacle; infer_instance

/-- The neighbour loop of one `astar` iteration: starting from the popped
entry `e` (with `current` already added to `visited`), push every in-bounds,
non-obstacle, unvisited neighbour onto the frontier, incrementing the
tiebreak counter per push.  Returns the pushed entries (in push order) and
the final counter. -/
def pushNeighbors (grid : Grid) (endp : Cell) (obstacles : List Kind)
    (e : Entry) (visited : List Cell) : Nat → List Cell → List Entry × Nat
  | counter, [] => ([], counter)
  | counter, next :: rest =>
    if ¬ inBounds grid next then
      pushNeighbors grid endp obstacles e visited counter rest
    else if isObstacle grid obstacles next ∨ next ∈ visited then
      pushNeighbors grid endp obstacles e visited counter rest
    else
      let entry : Entry :=
        { f := (e.path.length : Int) + heuristic next endp
          counter := counter + 1
          pos := next
          path := e.path ++ [next] }
      let (more, counter') :=
        pushNeighbors grid endp obstacles e visited (counter + 1) rest
      (entry :: more, counter')

/-- The four neighbours of `current`, in the order the Python source lists
them. -/
def neighborsOf (p : Cell) : List Cell :=
  [(p.1 + 1, p.2), (p.1 - 1, p.2), (p.1, p.2 + 1), (p.1, p.2 - 1)]

/-- The `while not frontier.empty()` loop of `astar`, parameterised by the
frontier-selection function `sel` (the priority queue's pop) and by fuel.
The fuel given by `astar` below strictly exceeds the largest possible number
of iterations, so the fuel-exhaustion branch is never reached. -/
def astarLoop (sel : List Entry → Option (Entry × List Entry)) (grid : Grid)
    (endp : Cell) (obstacles : List Kind) :
    Nat → List Entry → List Cell → Nat → List Cell
  | 0, _, _, _ => []
  | fuel + 1, frontier, visited, counter =>
    match sel frontier with
    | none => []
    | some (e, rest) =>
      if e.pos = endp then e.path
      else if e.pos ∈ visited then
        astarLoop sel grid endp obstacles fuel rest visited counter
      else
        let visited' := e.pos :: visited
        let (pushed, counter') :=
          pushNeighbors grid endp obstacles e visited' counter (neighborsOf e.pos)
        astarLoop sel grid endp obstacles fuel (rest ++ pushed)
          visited' counter'

/-- Fuel strictly exceeding any possible number of loop iterations: each
iteration pops one entry, at most `4 * (width * height + 1)` entries are ever
pushed (four per visited position), plus the initial entry. -/
def fuelBound (grid : Grid) : Nat :=
  4 * grid.width * grid.height + 6

/-- `astar(grid, start, end, obstacles)`: A* search seeded with
`frontier.put((0, 0, start, [start]))`, `visited = set()`, `counter = 0`;
returns the popped entry's path when it reaches `end`, or `[]` when the
frontier empties. -/
def astar (grid : Grid) (start endp : Cell) (obstacles : List Kind) : List Cell :=
  astarLoop popMin grid endp obstacles (fuelBound grid)
    [{ f := 0, counter := 0, pos := start, path := [start] }] [] 0

/-- A task dict `{'pickup': (x,y), 'dropoff': (x,y)}`.  Every task built by
the program carries both keys. -/
structure Task : Type where
  pickup : Cell
  dropoff : Cell
deriving DecidableEq, Repr

/-- The five values of `AGVAgent.state`. -/
inductive AgvState : Type where
  | idle
  | movingToPickup
  | delivering
  | charging
  | waiting
deriving DecidableEq, Repr

/-- The mutable fields of one `AGVAgent` (its configuration constants
`battery_drain_rate = 0.5`, `battery_charge_rate = 5.0`,
`low_battery_threshold = 20.0` are identical for every agent and embedded as
the global constants below). -/
structure AGV : Type where
  id : Nat
  pos : Cell
  battery : ℚ
  state : AgvState
  task : Option Task
  path : List Cell
  stepsWaiting : Nat
deriving DecidableEq, Repr

/-- `self.battery_drain_rate = 0.5`. -/
def batteryDrainRate : ℚ := 1 / 2

/-- `self.battery_charge_rate = 5.0`. -/
def batteryChargeRate : ℚ := 5

/-- `self.low_battery_threshold = 20.0`. -/
def lowBatteryThreshold : ℚ := 20

/-- The mutable state of a `WarehouseModel`: the fixed grid dimensions, the
static agents in registration order (kind and fixed cell), the AGV fleet in
registration order, the task backlog, the completed-task counter, and an
oracle stream standing for `random.choice` (with a cursor into it). -/
structure Model : Type where
  width : Nat
  height : Nat
  statics : List (Kind × Cell)
  agvs : List AGV
  availableTasks : List Task
  completedTasks : Nat
  oracle : Nat → Nat
  oracleIdx : Nat

/-- Occupant kinds at a cell: the static agents placed there plus one `agv`
marker per AGV whose position is that cell (`get_cell_list_contents`). -/
def kindsAt (statics : List (Kind × Cell)) (agvs : List AGV) (c : Cell) :
    List Kind :=
  (statics.filter (fun s => s.2 = c)).map Prod.fst ++
    (agvs.filter (fun b => b.pos = c)).map (fun _ => Kind.agv)

/-- The `mesa.space.MultiGrid` view of the model, as passed to `astar`. -/
def gridOf (m : Model) : Grid :=
  { width := m.width, height := m.height,
    contents := kindsAt m.statics m.agvs }

/-- `[agent.pos for agent in self.agents if isinstance(agent, ShelfAgent)]`. -/
def shelfPositions (m : Model) : List Cell :=
  (m.statics.filter (fun s => s.1 = Kind.shelf)).map Prod.snd

/-- `[agent.pos for agent in self.agents if isinstance(agent, DropoffPointAgent)]`. -/
def dropoffPositions (m : Model) : List Cell :=
  (m.statics.filter (fun s => s.1 = Kind.dropoff)).map Prod.snd

/-- Charging-station cells in agent registration order. -/
def chargerPositions (m : Model) : List Cell :=
  (m.statics.filter (fun s => s.1 = Kind.chargingStation)).map Prod.snd

/-- `random.choice(l)`: the oracle value at cursor `i` selects an element of
the non-empty list `l`. -/
def oracleChoice (oracle : Nat → Nat) (i : Nat) (l : List Cell) : Cell :=
  l.getD (oracle i % l.length) (0, 0)

/-- The task-construction loop of `_generate_tasks`: build `n` tasks,
each pairing `random.choice(shelf_positions)` with
`random.choice(dropoff_positions)`, consuming two oracle values per task. -/
def genTasks (shelfPs dropPs : List Cell) (oracle : Nat → Nat) :
    Nat → Nat → List Task
  | 0, _ => []
  | n + 1, i =>
    { pickup := oracleChoice oracle i shelfPs,
      dropoff := oracleChoice oracle (i + 1) dropPs } ::
      genTasks shelfPs dropPs oracle n (i + 2)

/-- `WarehouseModel._generate_tasks(num_tasks)`: no-op when the layout has no
shelf or no dropoff cell; otherwise append `num_tasks` random tasks to
`available_tasks`. -/
def generateTasks (m : Model) (numTasks : Nat) : Model :=
  if shelfPositions m = [] ∨ dropoffPositions m = [] then m
  else
    { m with
      availableTasks := m.availableTasks ++
        genTasks (shelfPositions m) (dropoffPositions m) m.oracle numTasks
          m.oracleIdx
      oracleIdx := m.oracleIdx + 2 * numTasks }

/-- `WarehouseModel.assign_task_to_agv(agv)`: pop the oldest backlog entry;
if the backlog then holds fewer than 10 tasks, generate 5 more; return the
popped task (or `None` on an empty backlog). -/
def assignTaskToAgv (m : Model) : Option Task × Model :=
  match m.availableTasks with
  | [] => (none, m)
  | t :: rest =>
    let m1 : Model := { m with availableTasks := rest }
    let m2 : Model :=
      if m1.availableTasks.length < 10 then generateTasks m1 5 else m1
    (some t, m2)

/-- `AGVAgent._calculate_path_to(destination)`: run `astar` with
`obstacles = [WallAgent, ShelfAgent]`; on an empty result revert to IDLE and
discard the task. -/
def calculatePathTo (m : Model) (a : AGV) (destination : Cell) : AGV :=
  let p := astar (gridOf m) a.pos destination [Kind.wall, Kind.shelf]
  if p = [] then { a with path := p, state := AgvState.idle, task := none }
  else { a with path := p }

/-- `AGVAgent._follow_path()`: peek the next path cell; if any `AGVAgent`
occupies it (the filter does not exclude the acting agent itself), become
WAITING and bump the wait counter; otherwise restore a WAITING state to the
task-appropriate state, move to the cell, pop it, drain the battery
(floored at 0) and reset the wait counter. -/
def followPath (m : Model) (a : AGV) : AGV :=
  match a.path with
  | [] => a
  | next :: rest =>
    if ∃ b ∈ m.agvs, b.pos = next then
      { a with state := AgvState.waiting, stepsWaiting := a.stepsWaiting + 1 }
    else
      let a1 :=
        if a.state = AgvState.waiting then
          { a with
            state :=
              if a.task.isSome then AgvState.movingToPickup
              else AgvState.delivering }
        else a
      { a1 with
        pos := next
        path := rest
        battery := max 0 (a1.battery - batteryDrainRate)
        stepsWaiting := 0 }

/-- The first element of `l` minimising `heuristic(pos, ·)` — the behaviour
of Python's `min(..., key=...)` on a non-empty list. -/
def minByHeuristic (pos : Cell) (x : Cell) : List Cell → Cell
  | [] => x
  | y :: ys =>
    if heuristic pos y < heuristic pos x then minByHeuristic pos y ys
    else minByHeuristic pos x ys

/-- `AGVAgent._start_charging()`: with no charging stations do nothing;
otherwise become CHARGING and compute a path to the Manhattan-nearest
station (first minimum in registration order). -/
def startCharging (m : Model) (a : AGV) : AGV :=
  match chargerPositions m with
  | [] => a
  | s :: ss =>
    let nearest := minByHeuristic a.pos s ss
    calculatePathTo m { a with state := AgvState.charging } nearest

/-- `AGVAgent._charge_battery()`: at a charging station, add the charge rate
(capped at 100) and return to IDLE with the task cleared on reaching 100;
away from a station, keep following the path. -/
def chargeBattery (m : Model) (a : AGV) : AGV :=
  if ∃ s ∈ m.statics, s.1 = Kind.chargingStation ∧ s.2 = a.pos then
    let a1 := { a with battery := min 100 (a.battery + batteryChargeRate) }
    if 100 ≤ a1.battery then
      { a1 with state := AgvState.idle, task := none }
    else a1
  else followPath m a

/-- `AGVAgent._handle_idle_state()`: request a task; when granted, bind it,
become MOVING_TO_PICKUP and compute a path to the pickup cell. -/
def handleIdle (m : Model) (a : AGV) : AGV × Model :=
  match assignTaskToAgv m with
  | (none, m') => (a, m')
  | (some t, m') =>
    (calculatePathTo m'
      { a with task := some t, state := AgvState.movingToPickup } t.pickup, m')

/-- `AGVAgent.step()`: the battery-critical override followed by the
state dispatch.  Note the dispatch has branches only for IDLE,
MOVING_TO_PICKUP, DELIVERING and CHARGING — a WAITING agent whose battery is
not critical falls through every branch and does nothing. -/
def agvStep (m : Model) (a : AGV) : AGV × Model :=
  if a.battery < lowBatteryThreshold ∧ a.state ≠ AgvState.charging then
    (startCharging m a, m)
  else
    match a.state with
    | AgvState.idle => handleIdle m a
    | AgvState.movingToPickup =>
      let a1 := followPath m a
      match a1.path, a1.task with
      | [], some t =>
        (calculatePathTo m { a1 with state := AgvState.delivering } t.dropoff, m)
      | _, _ => (a1, m)
    | AgvState.delivering =>
      let a1 := followPath m a
      if a1.path = [] then
        ({ a1 with task := none, state := AgvState.idle }, m)
      else (a1, m)
    | AgvState.charging => (chargeBattery m a, m)
    | AgvState.waiting => (a, m)

/-- Run the step of the (unique) AGV with identifier `vid` against the
current model, then write its updated record back into the fleet. -/
def stepAgentId (m : Model) (vid : Nat) : Model :=
  match m.agvs.find? (fun a => a.id = vid) with
  | none => m
  | some a =>
    let (a', m') := agvStep m a
    { m' with agvs := m'.agvs.map (fun b => if b.id = vid then a' else b) }

/-- `WarehouseModel.step()`: `shuffle_do("step")` over the AGV agents — each
AGV acts exactly once, sequentially, in the shuffled order `order`. -/
def modelStep (m : Model) (order : List Nat) : Model :=
  order.foldl stepAgentId m

/-! ### Concrete fixtures used to evaluate the code on failing inputs -/

/-- An obstacle-free 2×1 grid. -/
def openGrid2 : Grid :=
  { width := 2, height := 1, contents := fun _ => [] }

/-- A sample task. -/
def taskF : Task := { pickup := (5, 5), dropoff := (6, 6) }

/-- An AGV at `(0, 0)` holding exactly the path `astar` produces for the
goal `(1, 0)` on `openGrid2` (the path starts with the vehicle's own cell). -/
def agvSelfBlocked : AGV :=
  { id := 0, pos := (0, 0), battery := 100, state := AgvState.movingToPickup,
    task := some taskF, path := [(0, 0), (1, 0)], stepsWaiting := 0 }

/-- A model containing only `agvSelfBlocked`: no other vehicle exists. -/
def modelSelfBlocked : Model :=
  { width := 2, height := 1, statics := [], agvs := [agvSelfBlocked],
    availableTasks := [], completedTasks := 0, oracle := fun _ => 0,
    oracleIdx := 0 }

/-- A WAITING AGV with a healthy battery whose next path cell `(2, 0)` is
not occupied by any vehicle. -/
def agvStuck : AGV :=
  { id := 0, pos := (1, 0), battery := 100, state := AgvState.waiting,
    task := some taskF, path := [(2, 0)], stepsWaiting := 3 }

/-- A model containing only `agvStuck`: the obstruction has cleared. -/
def modelStuck : Model :=
  { width := 4, height := 1, statics := [], agvs := [agvStuck],
    availableTasks := [], completedTasks := 0, oracle := fun _ => 0,
    oracleIdx := 0 }

/-- An idle AGV whose battery `10` is below the low-battery threshold `20`. -/
def agvLowBattery : AGV :=
  { id := 0, pos := (0, 0), battery := 10, state := AgvState.idle,
    task := some taskF, path := [], stepsWaiting := 0 }

/-- A model with `agvLowBattery` and no charging station in the layout. -/
def modelNoChargers : Model :=
  { width := 2, height := 1, statics := [], agvs := [agvLowBattery],
    availableTasks := [], completedTasks := 0, oracle := fun _ => 0,
    oracleIdx := 0 }

/-! ### Claim theorems on the pathfinder's returned sequence (C1, C5) -/

/-- C1 (code bug): the spec contract — `findPath` returns a sequence
excluding the start cell and returns the empty sequence exactly when the
goal is unreachable or `start = goal` — is violated by the code.  On the
obstacle-free 2×1 grid, `astar` seeds the frontier with the path `[start]`,
so the call with `start = goal = (0,0)` returns the non-empty `[(0,0)]`,
and the call from `(0,0)` to `(1,0)` returns `[(0,0), (1,0)]`, whose first
element is the start cell. -/
theorem astar_start_goal_nonempty_and_start_included :
    astar openGrid2 (0, 0) (0, 0) [] = [(0, 0)] ∧
    astar openGrid2 (0, 0) (1, 0) [] = [(0, 0), (1, 0)] ∧
    (astar openGrid2 (0, 0) (1, 0) []).head? = some (0, 0) := by
  refine ⟨by decide, by decide, by decide⟩

/-- C5 (code bug): the spec property `|findPath(a, b, {})| = Manhattan(a, b)`
on an obstacle-free grid fails: because the returned sequence also contains
the start cell, its length is `Manhattan(a, b) + 1`.  Concretely on the
obstacle-free 2×1 grid with `a = (0,0)`, `b = (1,0)`: the Manhattan distance
is `1` but the returned sequence has length `2`. -/
theorem astar_length_exceeds_manhattan :
    heuristic (0, 0) (1, 0) = 1 ∧
    (astar openGrid2 (0, 0) (1, 0) []).length = 2 := by
  refine ⟨by decide, by decide⟩

/-! ### Claim theorems on the follow-path step (C2, C3) -/

/-- C2 (code bug): the spec says a vehicle waits iff the next path cell is
occupied by a Vehicle *other than itself*, and moves when no other Vehicle
occupies it.  The code's occupancy filter does not exclude the acting
vehicle: `agvSelfBlocked` is the only vehicle in its model and its next path
cell `(0,0)` is its own position, yet `_follow_path` sets it WAITING,
increments the wait counter and leaves position, battery and path
unchanged — instead of moving as the claim requires. -/
theorem followPath_blocks_on_self :
    (∀ b ∈ modelSelfBlocked.agvs, b.id ≠ agvSelfBlocked.id →
      b.pos ≠ (0, 0)) ∧
    agvSelfBlocked.path.head? = some (0, 0) ∧
    (followPath modelSelfBlocked agvSelfBlocked).state = AgvState.waiting ∧
    (followPath modelSelfBlocked agvSelfBlocked).pos = agvSelfBlocked.pos ∧
    (followPath modelSelfBlocked agvSelfBlocked).battery
      = agvSelfBlocked.battery ∧
    (followPath modelSelfBlocked agvSelfBlocked).stepsWaiting
      = agvSelfBlocked.stepsWaiting + 1 ∧
    (followPath modelSelfBlocked agvSelfBlocked).path = agvSelfBlocked.path := by
  refine ⟨by decide, by decide, by decide, by decide, by decide, by decide,
    by decide⟩

/-- C3 (code bug): the spec says a WAITING vehicle with adequate battery, a
non-empty path and an active task resumes (moves and restores its
task-appropriate state) once the next path cell is free.  `AGVAgent.step()`
has no branch for the WAITING state, so `agvStuck` — WAITING, battery 100,
path `[(2,0)]`, active task, next cell unoccupied — is returned completely
unchanged by its per-tick action: it neither moves nor leaves WAITING. -/
theorem waiting_agent_never_resumes :
    (∀ b ∈ modelStuck.agvs, b.pos ≠ (2, 0)) ∧
    agvStuck.state = AgvState.waiting ∧
    lowBatteryThreshold ≤ agvStuck.battery ∧
    agvStuck.path = [(2, 0)] ∧
    agvStuck.task.isSome = true ∧
    (agvStep modelStuck agvStuck).1 = agvStuck := by
  refine ⟨by decide, by decide, by decide, by decide, by decide, by decide⟩

/-! ### C6: low-battery preemption -/

/-- The first minimum returned by `min(..., key=...)` is an element of the
scanned list. -/
theorem minByHeuristic_mem (pos : Cell) (x : Cell) (l : List Cell) :
    minByHeuristic pos x l ∈ x :: l := by
  induction l generalizing x with
  | nil => simp [minByHeuristic]
  | cons y ys ih =>
    simp only [minByHeuristic]
    split
    · rcases List.mem_cons.mp (ih y) with h | h
      · simp [h]
      · exact List.mem_cons_of_mem _ (List.mem_cons_of_mem _ h)
    · rcases List.mem_cons.mp (ih x) with h | h
      · simp [h]
      · exact List.mem_cons_of_mem _ (List.mem_cons_of_mem _ h)

/-- The first minimum returned by `min(..., key=...)` minimises the key over
the scanned list. -/
theorem minByHeuristic_le (pos : Cell) (x : Cell) (l : List Cell) :
    ∀ z ∈ x :: l,
      heuristic pos (minByHeuristic pos x l) ≤ heuristic pos z := by
  induction l generalizing x with
  | nil =>
    intro z hz
    rcases List.mem_cons.mp hz with hz | hz
    · subst hz
      simp [minByHeuristic]
    · simp at hz
  | cons y ys ih =>
    intro z hz
    have hself : ∀ w : Cell, heuristic pos (minByHeuristic pos w ys)
        ≤ heuristic pos w :=
      fun w => ih w w (List.mem_cons_self _ _)
    rcases List.mem_cons.mp hz with hzx | hz'
    · subst hzx
      simp only [minByHeuristic]
      split
      · rename_i hlt
        exact le_of_lt (lt_of_le_of_lt (hself y) hlt)
      · exact hself z
    · rcases List.mem_cons.mp hz' with hzy | hys
      · subst hzy
        simp only [minByHeuristic]
        split
        · exact hself z
        · rename_i hlt
          push_neg at hlt
          exact le_trans (hself x) hlt
      · simp only [minByHeuristic]
        split
        · exact ih y z (List.mem_cons_of_mem _ hys)
        · exact ih x z (List.mem_cons_of_mem _ hys)

theorem calculatePathTo_battery (m : Model) (a : AGV) (d : Cell) :
    (calculatePathTo m a d).battery = a.battery := by
  simp only [calculatePathTo]
  split <;> rfl

theorem calculatePathTo_pos (m : Model) (a : AGV) (d : Cell) :
    (calculatePathTo m a d).pos = a.pos := by
  simp only [calculatePathTo]
  split <;> rfl

theorem calculatePathTo_id (m : Model) (a : AGV) (d : Cell) :
    (calculatePathTo m a d).id = a.id := by
  simp only [calculatePathTo]
  split <;> rfl

/-- C6 (counterexample): a vehicle with battery below the threshold and
state ≠ CHARGING is *not* always CHARGING after its next per-tick action:
with no charging station in the layout, `_start_charging` returns without
changing anything, so `agvLowBattery` (battery 10, IDLE) is still IDLE. -/
theorem low_battery_agent_not_charging :
    agvLowBattery.battery < lowBatteryThreshold ∧
    agvLowBattery.state ≠ AgvState.charging ∧
    (agvStep modelNoChargers agvLowBattery).1.state = AgvState.idle ∧
    (agvStep modelNoChargers agvLowBattery).1.state ≠ AgvState.charging := by
  refine ⟨by decide, by decide, by decide, by decide⟩

/-- C6 (amended): a vehicle with battery below the low-battery threshold and
state ≠ CHARGING is in state CHARGING after its next per-tick action, with a
freshly computed path to the Manhattan-nearest charging-station cell (first
minimum in registration order) and its in-progress task retained — provided
at least one charging station exists in the layout and the freshly computed
path is non-empty. -/
theorem low_battery_preemption_amended (m : Model) (a : AGV)
    (hb : a.battery < lowBatteryThreshold) (hs : a.state ≠ AgvState.charging)
    (s : Cell) (ss : List Cell) (hch : chargerPositions m = s :: ss)
    (hpath : astar (gridOf m) a.pos (minByHeuristic a.pos s ss)
      [Kind.wall, Kind.shelf] ≠ []) :
    (agvStep m a).1.state = AgvState.charging ∧
    (agvStep m a).1.path =
      astar (gridOf m) a.pos (minByHeuristic a.pos s ss)
        [Kind.wall, Kind.shelf] ∧
    (agvStep m a).1.task = a.task ∧
    minByHeuristic a.pos s ss ∈ chargerPositions m ∧
    ∀ c ∈ chargerPositions m,
      heuristic a.pos (minByHeuristic a.pos s ss) ≤ heuristic a.pos c := by
  have hcond : a.battery < lowBatteryThreshold ∧ a.state ≠ AgvState.charging :=
    ⟨hb, hs⟩
  rw [agvStep, if_pos hcond]
  simp only [startCharging, hch, calculatePathTo]
  rw [if_neg hpath]
  refine ⟨rfl, rfl, rfl, ?_, ?_⟩
  · exact minByHeuristic_mem _ _ _
  · exact minByHeuristic_le _ _ _

/-- An AGV with low battery used to exercise the amended preemption rule. -/
def agvNeedsCharge : AGV :=
  { id := 1, pos := (0, 0), battery := 10, state := AgvState.idle,
    task := some taskF, path := [], stepsWaiting := 0 }

/-- A 3×1 model with one charging station at `(2, 0)`. -/
def modelOneCharger : Model :=
  { width := 3, height := 1, statics := [(Kind.chargingStation, (2, 0))],
    agvs := [agvNeedsCharge], availableTasks := [], completedTasks := 0,
    oracle := fun _ => 0, oracleIdx := 0 }

/-- Witness for the amended C6 theorem: in `modelOneCharger` the low-battery
IDLE vehicle satisfies every hypothesis, and its per-tick action makes it
CHARGING with the computed path to the station. -/
theorem low_battery_preemption_amended_witness :
    (agvNeedsCharge.battery < lowBatteryThreshold ∧
      agvNeedsCharge.state ≠ AgvState.charging ∧
      chargerPositions modelOneCharger = [(2, 0)] ∧
      astar (gridOf modelOneCharger) agvNeedsCharge.pos
        (minByHeuristic agvNeedsCharge.pos (2, 0) [])
        [Kind.wall, Kind.shelf] ≠ []) ∧
    (agvStep modelOneCharger agvNeedsCharge).1.state = AgvState.charging ∧
    (agvStep modelOneCharger agvNeedsCharge).1.task = agvNeedsCharge.task :=
  ⟨⟨by decide, by decide, by decide, by decide⟩,
    (low_battery_preemption_amended modelOneCharger agvNeedsCharge
      (by decide) (by decide) (2, 0) [] (by decide) (by decide)).1,
    (low_battery_preemption_amended modelOneCharger agvNeedsCharge
      (by decide) (by decide) (2, 0) [] (by decide) (by decide)).2.2.1⟩

/-! ### Behaviour of each step branch on position, battery and identifier -/

theorem followPath_id (m : Model) (a : AGV) :
    (followPath m a).id = a.id := by
  unfold followPath
  split
  · rfl
  · split
    · rfl
    · split <;> rfl

theorem startCharging_id (m : Model) (a : AGV) :
    (startCharging m a).id = a.id := by
  unfold startCharging
  split
  · rfl
  · rw [calculatePathTo_id]

theorem startCharging_pos (m : Model) (a : AGV) :
    (startCharging m a).pos = a.pos := by
  unfold startCharging
  split
  · rfl
  · rw [calculatePathTo_pos]

theorem startCharging_battery (m : Model) (a : AGV) :
    (startCharging m a).battery = a.battery := by
  unfold startCharging
  split
  · rfl
  · rw [calculatePathTo_battery]

theorem chargeBattery_id (m : Model) (a : AGV) :
    (chargeBattery m a).id = a.id := by
  unfold chargeBattery
  split
  · simp only []
    split <;> rfl
  · exact followPath_id m a

theorem handleIdle_id (m : Model) (a : AGV) :
    (handleIdle m a).1.id = a.id := by
  unfold handleIdle
  split
  · rfl
  · rw [calculatePathTo_id]

theorem handleIdle_pos (m : Model) (a : AGV) :
    (handleIdle m a).1.pos = a.pos := by
  unfold handleIdle
  split
  · rfl
  · rw [calculatePathTo_pos]

theorem handleIdle_battery (m : Model) (a : AGV) :
    (handleIdle m a).1.battery = a.battery := by
  unfold handleIdle
  split
  · rfl
  · rw [calculatePathTo_battery]

/-- The follow-path step either leaves position and battery unchanged, or
drains the battery by the per-move rate (floored at 0) and moves to a cell
that no vehicle of the model occupies. -/
theorem followPath_spec (m : Model) (a : AGV) :
    ((followPath m a).pos = a.pos ∧ (followPath m a).battery = a.battery) ∨
    ((followPath m a).battery = max 0 (a.battery - batteryDrainRate) ∧
      ∀ b ∈ m.agvs, b.pos ≠ (followPath m a).pos) := by
  unfold followPath
  split
  · exact Or.inl ⟨rfl, rfl⟩
  · rename_i next rest hp
    split
    · exact Or.inl ⟨rfl, rfl⟩
    · rename_i hocc
      push_neg at hocc
      right
      constructor
      · split <;> rfl
      · intro b hb
        have : b.pos ≠ next := hocc b hb
        split <;> simpa using this

/-- `_charge_battery` either charges in place (at a charging station) or
behaves exactly as the follow-path step. -/
theorem chargeBattery_spec (m : Model) (a : AGV) :
    ((chargeBattery m a).pos = a.pos ∧
      (chargeBattery m a).battery = min 100 (a.battery + batteryChargeRate)) ∨
    chargeBattery m a = followPath m a := by
  unfold chargeBattery
  split
  · simp only []
    left
    constructor
    · split <;> rfl
    · split <;> rfl
  · exact Or.inr rfl

/-- One tick of a single vehicle does exactly one of: leave position and
battery unchanged; charge in place; or drain the battery by the per-move
rate while moving to a cell no vehicle of the model occupies. -/
theorem agvStep_spec (m : Model) (a : AGV) :
    ((agvStep m a).1.pos = a.pos ∧ (agvStep m a).1.battery = a.battery) ∨
    ((agvStep m a).1.pos = a.pos ∧
      (agvStep m a).1.battery = min 100 (a.battery + batteryChargeRate)) ∨
    ((agvStep m a).1.battery = max 0 (a.battery - batteryDrainRate) ∧
      ∀ b ∈ m.agvs, b.pos ≠ (agvStep m a).1.pos) := by
  unfold agvStep
  split
  · exact Or.inl ⟨startCharging_pos m a, startCharging_battery m a⟩
  · split
    · exact Or.inl ⟨handleIdle_pos m a, handleIdle_battery m a⟩
    · -- MOVING_TO_PICKUP
      simp only []
      rcases followPath_spec m a with ⟨hpos, hbat⟩ | ⟨hbat, hocc⟩
      · split
        · rename_i t heq
          exact Or.inl ⟨(calculatePathTo_pos _ _ _).trans hpos,
            (calculatePathTo_battery _ _ _).trans hbat⟩
        · exact Or.inl ⟨hpos, hbat⟩
      · split
        · rename_i t heq
          refine Or.inr (Or.inr ⟨(calculatePathTo_battery _ _ _).trans hbat, ?_⟩)
          intro b hb
          rw [calculatePathTo_pos]
          exact hocc b hb
        · exact Or.inr (Or.inr ⟨hbat, hocc⟩)
    · -- DELIVERING
      simp only []
      rcases followPath_spec m a with ⟨hpos, hbat⟩ | ⟨hbat, hocc⟩
      · split
        · exact Or.inl ⟨hpos, hbat⟩
        · exact Or.inl ⟨hpos, hbat⟩
      · split
        · exact Or.inr (Or.inr ⟨hbat, hocc⟩)
        · exact Or.inr (Or.inr ⟨hbat, hocc⟩)
    · -- CHARGING
      rcases chargeBattery_spec m a with ⟨hpos, hbat⟩ | heq
      · exact Or.inr (Or.inl ⟨hpos, hbat⟩)
      · rw [heq]
        rcases followPath_spec m a with ⟨hpos, hbat⟩ | ⟨hbat, hocc⟩
        · exact Or.inl ⟨hpos, hbat⟩
        · exact Or.inr (Or.inr ⟨hbat, hocc⟩)
    · -- WAITING
      exact Or.inl ⟨rfl, rfl⟩

theorem agvStep_id (m : Model) (a : AGV) : (agvStep m a).1.id = a.id := by
  unfold agvStep
  split
  · exact startCharging_id m a
  · split
    · exact handleIdle_id m a
    · simp only []
      split
      · rw [calculatePathTo_id]
        exact followPath_id m a
      · exact followPath_id m a
    · simp only []
      split
      · exact followPath_id m a
      · exact followPath_id m a
    · exact chargeBattery_id m a
    · rfl

theorem generateTasks_agvs (m : Model) (n : Nat) :
    (generateTasks m n).agvs = m.agvs := by
  unfold generateTasks
  split <;> rfl

theorem generateTasks_statics (m : Model) (n : Nat) :
    (generateTasks m n).statics = m.statics := by
  unfold generateTasks
  split <;> rfl

theorem assignTaskToAgv_agvs (m : Model) :
    (assignTaskToAgv m).2.agvs = m.agvs := by
  unfold assignTaskToAgv
  split
  · rfl
  · simp only []
    split
    · rw [generateTasks_agvs]
    · rfl

theorem assignTaskToAgv_statics (m : Model) :
    (assignTaskToAgv m).2.statics = m.statics := by
  unfold assignTaskToAgv
  split
  · rfl
  · simp only []
    split
    · rw [generateTasks_statics]
    · rfl

theorem handleIdle_agvs (m : Model) (a : AGV) :
    (handleIdle m a).2.agvs = m.agvs := by
  unfold handleIdle
  split <;>
    · rename_i heq
      have := congrArg Prod.snd heq
      simp only [] at this
      rw [← this, assignTaskToAgv_agvs]

theorem agvStep_agvs (m : Model) (a : AGV) :
    (agvStep m a).2.agvs = m.agvs := by
  unfold agvStep
  split
  · rfl
  · split
    · exact handleIdle_agvs m a
    · simp only []
      split <;> rfl
    · simp only []
      split <;> rfl
    · rfl
    · rfl

/-- Every vehicle record after `stepAgentId` is either an untouched record
of the previous fleet or the result of one vehicle's `agvStep` on the
previous model. -/
theorem stepAgentId_mem (m : Model) (vid : Nat) :
    ∀ b ∈ (stepAgentId m vid).agvs,
      b ∈ m.agvs ∨ ∃ a ∈ m.agvs, b = (agvStep m a).1 := by
  unfold stepAgentId
  split
  · exact fun b hb => Or.inl hb
  · rename_i a hfind
    intro b hb
    simp only [] at hb
    rw [agvStep_agvs] at hb
    rcases List.mem_map.mp hb with ⟨x, hx, hbx⟩
    by_cases hid : x.id = vid
    · rw [if_pos hid] at hbx
      exact Or.inr ⟨a, List.mem_of_find?_eq_some hfind, hbx.symm⟩
    · rw [if_neg hid] at hbx
      exact Or.inl (hbx ▸ hx)

theorem agvStep_battery_bounds (m : Model) (a : AGV)
    (h0 : 0 ≤ a.battery) (h1 : a.battery ≤ 100) :
    0 ≤ (agvStep m a).1.battery ∧ (agvStep m a).1.battery ≤ 100 := by
  rcases agvStep_spec m a with ⟨_, hbat⟩ | ⟨_, hbat⟩ | ⟨hbat, _⟩ <;> rw [hbat]
  · exact ⟨h0, h1⟩
  · constructor
    · have : (0 : ℚ) ≤ a.battery + batteryChargeRate := by
        unfold batteryChargeRate; linarith
      exact le_min (by norm_num) this
    · exact min_le_left _ _
  · constructor
    · exact le_max_left _ _
    · have : a.battery - batteryDrainRate ≤ 100 := by
        unfold batteryDrainRate; linarith
      exact max_le (by norm_num) this

theorem stepAgentId_battery_bounds (m : Model) (vid : Nat)
    (hb : ∀ a ∈ m.agvs, 0 ≤ a.battery ∧ a.battery ≤ 100) :
    ∀ a ∈ (stepAgentId m vid).agvs, 0 ≤ a.battery ∧ a.battery ≤ 100 := by
  intro b hbmem
  rcases stepAgentId_mem m vid b hbmem with h | ⟨a, ha, rfl⟩
  · exact hb b h
  · exact agvStep_battery_bounds m a (hb a ha).1 (hb a ha).2

/-- C8: for every vehicle the battery stays within `[0, 100]` across a full
tick of the model, and within each single vehicle's per-tick action the
battery is non-increasing if the vehicle moved and non-decreasing if it
charged (state CHARGING at a charging-station cell). -/
theorem battery_bounds_and_tick_monotonicity (m : Model) (order : List Nat)
    (hb : ∀ a ∈ m.agvs, 0 ≤ a.battery ∧ a.battery ≤ 100) :
    (∀ a ∈ (modelStep m order).agvs, 0 ≤ a.battery ∧ a.battery ≤ 100) ∧
    ∀ a ∈ m.agvs,
      ((agvStep m a).1.pos ≠ a.pos → (agvStep m a).1.battery ≤ a.battery) ∧
      ((a.state = AgvState.charging ∧
          ∃ s ∈ m.statics, s.1 = Kind.chargingStation ∧ s.2 = a.pos) →
        a.battery ≤ (agvStep m a).1.battery) := by
  constructor
  · unfold modelStep
    induction order generalizing m with
    | nil => exact hb
    | cons v vs ih =>
      exact ih (stepAgentId m v) (stepAgentId_battery_bounds m v hb)
  · intro a ha
    constructor
    · intro hmoved
      rcases agvStep_spec m a with ⟨hpos, _⟩ | ⟨hpos, _⟩ | ⟨hbat, _⟩
      · exact absurd hpos hmoved
      · exact absurd hpos hmoved
      · rw [hbat]
        have := (hb a ha).1
        have hd : (0 : ℚ) < batteryDrainRate := by unfold batteryDrainRate; norm_num
        rcases max_cases (0 : ℚ) (a.battery - batteryDrainRate) with ⟨h, _⟩ | ⟨h, _⟩
          <;> rw [h] <;> linarith
    · rintro ⟨hst, hat⟩
      have hcond : ¬ (a.battery < lowBatteryThreshold ∧
          a.state ≠ AgvState.charging) := by
        rintro ⟨_, hne⟩
        exact hne hst
      have : agvStep m a = (chargeBattery m a, m) := by
        unfold agvStep
        rw [if_neg hcond, hst]
      rw [this]
      have hch : (chargeBattery m a).battery
          = min 100 (a.battery + batteryChargeRate) := by
        unfold chargeBattery
        rw [if_pos hat]
        simp only []
        split <;> rfl
      simp only [hch]
      have h1 := (hb a ha).2
      have hr : (0 : ℚ) < batteryChargeRate := by unfold batteryChargeRate; norm_num
      rcases min_cases (100 : ℚ) (a.battery + batteryChargeRate) with ⟨h, _⟩ | ⟨h, _⟩
        <;> rw [h] <;> linarith

/-- Witness for C8: a concrete single-vehicle model within bounds; after a
tick the bounds still hold, and the blocked vehicle (which neither moves nor
charges) satisfies the monotonicity conjuncts vacuously or by equality. -/
theorem battery_bounds_witness :
    (∀ a ∈ modelSelfBlocked.agvs, 0 ≤ a.battery ∧ a.battery ≤ 100) ∧
    (∀ a ∈ (modelStep modelSelfBlocked [0]).agvs,
      0 ≤ a.battery ∧ a.battery ≤ 100) :=
  ⟨by decide,
    (battery_bounds_and_tick_monotonicity modelSelfBlocked [0] (by decide)).1⟩

/-! ### C7: no double occupancy -/

/-- Number of Vehicle occupants of cell `c`. -/
def vehiclesAt (l : List AGV) (c : Cell) : Nat :=
  (l.filter (fun a => a.pos = c)).length

/-- "Every cell holds at most one Vehicle occupant" is exactly pairwise
distinctness of the fleet's positions. -/
theorem pairwise_pos_iff_counts (l : List AGV) :
    l.Pairwise (fun x y => x.pos ≠ y.pos) ↔ ∀ c : Cell, vehiclesAt l c ≤ 1 := by
  induction l with
  | nil => simp [vehiclesAt]
  | cons a t ih =>
    rw [List.pairwise_cons]
    constructor
    · rintro ⟨h1, h2⟩ c
      unfold vehiclesAt
      rw [List.filter_cons]
      by_cases ha : a.pos = c
      · have ht : t.filter (fun b => decide (b.pos = c)) = [] := by
          rw [List.filter_eq_nil_iff]
          intro b hb
          simp only [decide_eq_true_eq]
          rw [← ha]
          exact fun hc => h1 b hb hc.symm
        simp [ha, ht]
      · simpa [ha] using (ih.mp h2) c
    · intro h
      refine ⟨?_, ih.mpr fun c => ?_⟩
      · intro b hb heq
        have := h a.pos
        unfold vehiclesAt at this
        rw [List.filter_cons] at this
        rw [if_pos (by simp)] at this
        have hbmem : b ∈ t.filter (fun x => decide (x.pos = a.pos)) :=
          List.mem_filter.mpr ⟨hb, by simp [heq]⟩
        rcases List.length_pos.mpr (List.ne_nil_of_mem hbmem) with hlen
        simp only [List.length_cons] at this
        omega
      · have := h c
        unfold vehiclesAt at this ⊢
        rw [List.filter_cons] at this
        split at this
        · simp only [List.length_cons] at this; omega
        · exact this

/-- Replacing the (unique, by `Nodup` of the identifiers) record with
identifier `vid` by a record `a'` preserves pairwise-distinct positions,
provided `a'` either keeps that record's position or sits at a cell no
record of the fleet occupies. -/
theorem update_pairwise (l : List AGV) (vid : Nat) (a' : AGV)
    (hids : (l.map AGV.id).Nodup)
    (hpos : l.Pairwise fun x y => x.pos ≠ y.pos)
    (hcase : (∀ b ∈ l, b.id = vid → a'.pos = b.pos) ∨ ∀ b ∈ l, b.pos ≠ a'.pos) :
    (l.map fun b => if b.id = vid then a' else b).Pairwise
      fun x y => x.pos ≠ y.pos := by
  rw [List.pairwise_map]
  have hstrong : l.Pairwise fun x y => x ∈ l ∧ y ∈ l ∧ x.pos ≠ y.pos := by
    have := List.Pairwise.and_mem.mp hpos
    exact this.imp (fun h => ⟨h.1, h.2.1, h.2.2⟩)
  refine hstrong.imp ?_
  rintro x y ⟨hx, hy, hne⟩
  by_cases hxv : x.id = vid <;> by_cases hyv : y.id = vid
  · exact absurd (List.inj_on_of_nodup_map hids hx hy (hxv.trans hyv.symm))
      (fun hxy => hne (hxy ▸ rfl))
  · rw [if_pos hxv, if_neg hyv]
    rcases hcase with hc | hc
    · rw [hc x hx hxv]; exact hne
    · exact fun h => hc y hy h.symm
  · rw [if_neg hxv, if_pos hyv]
    rcases hcase with hc | hc
    · rw [hc y hy hyv]; exact hne
    · exact hc x hx
  · rw [if_neg hxv, if_neg hyv]; exact hne

theorem stepAgentId_ids (m : Model) (vid : Nat) :
    (stepAgentId m vid).agvs.map AGV.id = m.agvs.map AGV.id := by
  unfold stepAgentId
  split
  · rfl
  · rename_i a hfind
    simp only []
    rw [agvStep_agvs, List.map_map]
    apply List.map_congr_left
    intro b hb
    simp only [Function.comp]
    by_cases hid : b.id = vid
    · rw [if_pos hid, agvStep_id]
      have haid : a.id = vid := by simpa using List.find?_some hfind
      rw [haid, hid]
    · rw [if_neg hid]

theorem stepAgentId_pairwise (m : Model) (vid : Nat)
    (hids : (m.agvs.map AGV.id).Nodup)
    (hpos : m.agvs.Pairwise fun x y => x.pos ≠ y.pos) :
    (stepAgentId m vid).agvs.Pairwise fun x y => x.pos ≠ y.pos := by
  unfold stepAgentId
  split
  · exact hpos
  · rename_i a hfind
    simp only []
    rw [agvStep_agvs]
    apply update_pairwise _ _ _ hids hpos
    have haid : a.id = vid := by simpa using List.find?_some hfind
    have hamem : a ∈ m.agvs := List.mem_of_find?_eq_some hfind
    rcases agvStep_spec m a with ⟨hposeq, _⟩ | ⟨hposeq, _⟩ | ⟨_, hocc⟩
    · left
      intro b hb hbid
      have hba : b = a :=
        List.inj_on_of_nodup_map hids hb hamem (by rw [hbid, haid])
      rw [hba, hposeq]
    · left
      intro b hb hbid
      have hba : b = a :=
        List.inj_on_of_nodup_map hids hb hamem (by rw [hbid, haid])
      rw [hba, hposeq]
    · right
      exact hocc

/-- C7: starting from any state in which every grid cell holds at most one
Vehicle occupant (and vehicle identifiers are distinct), after one complete
`step()` pass over the fleet in any shuffled order, every cell again holds
at most one Vehicle occupant. -/
theorem no_double_occupancy (m : Model) (order : List Nat)
    (hids : (m.agvs.map AGV.id).Nodup)
    (hperm : order.Perm (m.agvs.map AGV.id))
    (hocc : ∀ c : Cell, vehiclesAt m.agvs c ≤ 1) :
    ∀ c : Cell, vehiclesAt (modelStep m order).agvs c ≤ 1 := by
  clear hperm
  have main : ∀ (ord : List Nat) (m0 : Model), (m0.agvs.map AGV.id).Nodup →
      (m0.agvs.Pairwise fun x y => x.pos ≠ y.pos) →
      ((modelStep m0 ord).agvs.Pairwise fun x y => x.pos ≠ y.pos) := by
    intro ord
    induction ord with
    | nil => exact fun m0 _ h2 => h2
    | cons v vs ih =>
      intro m0 h1 h2
      have h1' : ((stepAgentId m0 v).agvs.map AGV.id).Nodup := by
        rw [stepAgentId_ids]; exact h1
      exact ih (stepAgentId m0 v) h1' (stepAgentId_pairwise m0 v h1 h2)
  exact (pairwise_pos_iff_counts _).mp
    (main order m hids ((pairwise_pos_iff_counts _).mpr hocc))

/-- A blocked vehicle and an idle vehicle on adjacent cells. -/
def agvTwoA : AGV :=
  { id := 0, pos := (1, 0), battery := 100, state := AgvState.waiting,
    task := some taskF, path := [(2, 0)], stepsWaiting := 1 }

/-- The second vehicle, occupying the first vehicle's next path cell. -/
def agvTwoB : AGV :=
  { id := 1, pos := (2, 0), battery := 100, state := AgvState.idle,
    task := none, path := [], stepsWaiting := 0 }

/-- A 4×1 model with the two vehicles above. -/
def modelTwo : Model :=
  { width := 4, height := 1, statics := [], agvs := [agvTwoA, agvTwoB],
    availableTasks := [], completedTasks := 0, oracle := fun _ => 0,
    oracleIdx := 0 }

/-- Witness for C7: the two-vehicle model satisfies the hypotheses and
keeps single occupancy after a full tick. -/
theorem no_double_occupancy_witness :
    ((modelTwo.agvs.map AGV.id).Nodup ∧
      ([0, 1] : List Nat).Perm (modelTwo.agvs.map AGV.id)) ∧
    ∀ c : Cell, vehiclesAt (modelStep modelTwo [0, 1]).agvs c ≤ 1 :=
  ⟨⟨by decide, by decide⟩,
    no_double_occupancy modelTwo [0, 1] (by decide) (by decide)
      ((pairwise_pos_iff_counts modelTwo.agvs).mp (by decide))⟩

/-! ### C9: backlog non-starvation -/

theorem genTasks_length (sh dp : List Cell) (o : Nat → Nat) (n i : Nat) :
    (genTasks sh dp o n i).length = n := by
  induction n generalizing i with
  | zero => rfl
  | succ k ih => simp [genTasks, ih]

theorem generateTasks_length (m : Model) (n : Nat)
    (hsh : shelfPositions m ≠ []) (hdp : dropoffPositions m ≠ []) :
    (generateTasks m n).availableTasks.length
      = m.availableTasks.length + n := by
  unfold generateTasks
  rw [if_neg (by simp [hsh, hdp])]
  simp [genTasks_length]

/-- C9: when the layout has at least one Shelf (pickup) and one dropoff
cell, any `requestTask` call made while the backlog is in its reachable
regime (length ≥ the low-water mark 10 — established at initialization by
`_generate_tasks(30)`, the final conjunct, and preserved by this theorem)
pops the oldest task, and the backlog length at the end of the call is again
at least the low-water mark: in particular, whenever the pop drops the
backlog below the mark, the in-call replenishment restores it to ≥ 10. -/
theorem backlog_non_starvation (m : Model)
    (hsh : shelfPositions m ≠ []) (hdp : dropoffPositions m ≠ [])
    (hlen : 10 ≤ m.availableTasks.length) :
    (assignTaskToAgv m).1 = m.availableTasks.head? ∧
    ((assignTaskToAgv m).1.isSome = true) ∧
    10 ≤ (assignTaskToAgv m).2.availableTasks.length ∧
    ∀ m0 : Model, m0.availableTasks = [] → shelfPositions m0 ≠ [] →
      dropoffPositions m0 ≠ [] →
      (generateTasks m0 30).availableTasks.length = 30 := by
  match hav : m.availableTasks with
  | [] => rw [hav] at hlen; simp at hlen
  | t :: rest =>
    refine ⟨?_, ?_, ?_, ?_⟩
    · unfold assignTaskToAgv
      rw [hav]
      rfl
    · unfold assignTaskToAgv
      rw [hav]
      rfl
    · unfold assignTaskToAgv
      rw [hav]
      simp only []
      have hrest : 9 ≤ rest.length := by
        rw [hav] at hlen
        simp only [List.length_cons] at hlen
        omega
      split
      · rename_i hsmall
        have hsh' : shelfPositions { m with availableTasks := rest } ≠ [] := hsh
        have hdp' : dropoffPositions { m with availableTasks := rest } ≠ [] := hdp
        rw [generateTasks_length _ _ hsh' hdp']
        simp only [List.length_cons]
        omega
      · rename_i hbig
        have hb2 : ¬ rest.length < 10 := hbig
        show 10 ≤ rest.length
        omega
    · intro m0 h0 hsh0 hdp0
      rw [generateTasks_length _ _ hsh0 hdp0, h0]
      rfl

/-- A model with one shelf, one dropoff and a backlog of exactly the
low-water mark. -/
def modelBacklog : Model :=
  { width := 4, height := 1,
    statics := [(Kind.shelf, (1, 0)), (Kind.dropoff, (2, 0))],
    agvs := [], availableTasks := List.replicate 10 taskF,
    completedTasks := 0, oracle := fun _ => 0, oracleIdx := 0 }

/-- Witness for C9: on `modelBacklog` the call pops a task (dropping the
backlog to 9, below the mark) and the in-call replenishment brings the
backlog back to at least 10. -/
theorem backlog_non_starvation_witness :
    (shelfPositions modelBacklog ≠ [] ∧ dropoffPositions modelBacklog ≠ [] ∧
      10 ≤ modelBacklog.availableTasks.length) ∧
    10 ≤ (assignTaskToAgv modelBacklog).2.availableTasks.length :=
  ⟨⟨by decide, by decide, by decide⟩,
    (backlog_non_starvation modelBacklog (by decide) (by decide)
      (by decide)).2.2.1⟩






theorem popMin_none_iff (l : List Entry) : popMin l = none ↔ l = [] := by
  cases l with
  | nil => simp [popMin]
  | cons e es =>
    simp only [popMin]
    refine ⟨fun h => ?_, fun h => by simp at h⟩
    exfalso
    split at h
    · simp at h
    · split at h <;> simp at h

theorem popMin_mem {l : List Entry} {e : Entry} {r : List Entry}
    (h : popMin l = some (e, r)) : e ∈ l := by
  induction l generalizing e r with
  | nil => simp [popMin] at h
  | cons a es ih =>
    simp only [popMin] at h
    split at h
    · obtain ⟨rfl, rfl⟩ : a = e ∧ r = ([] : List Entry) := by simpa using h
      exact List.mem_cons_self _ _
    · rename_i mm rr hm
      split at h
      · obtain ⟨rfl, rfl⟩ : a = e ∧ es = r := by simpa using h
        exact List.mem_cons_self _ _
      · obtain ⟨rfl, rfl⟩ : mm = e ∧ a :: rr = r := by simpa using h
        exact List.mem_cons_of_mem _ (ih hm)

theorem popMin_rest_subset {l : List Entry} {e : Entry} {r : List Entry}
    (h : popMin l = some (e, r)) : ∀ x ∈ r, x ∈ l := by
  induction l generalizing e r with
  | nil => simp [popMin] at h
  | cons a es ih =>
    simp only [popMin] at h
    split at h
    · obtain ⟨rfl, rfl⟩ : a = e ∧ r = ([] : List Entry) := by simpa using h
      intro x hx
      simp at hx
    · rename_i mm rr hm
      split at h
      · obtain ⟨rfl, rfl⟩ : a = e ∧ es = r := by simpa using h
        exact fun x hx => List.mem_cons_of_mem _ hx
      · obtain ⟨rfl, rfl⟩ : mm = e ∧ a :: rr = r := by simpa using h
        intro x hx
        rcases List.mem_cons.mp hx with hxa | hxr
        · exact hxa ▸ List.mem_cons_self _ _
        · exact List.mem_cons_of_mem _ (ih hm x hxr)

theorem popMin_min {l : List Entry} {e : Entry} {r : List Entry}
    (h : popMin l = some (e, r)) :
    ∀ x ∈ l, keyLe (entryKey e) (entryKey x) := by
  induction l generalizing e r with
  | nil => simp [popMin] at h
  | cons a es ih =>
    simp only [popMin] at h
    split at h
    · rename_i hm
      obtain ⟨rfl, rfl⟩ : a = e ∧ r = ([] : List Entry) := by simpa using h
      have hes : es = [] := (popMin_none_iff es).mp hm
      subst hes
      intro x hx
      rcases List.mem_cons.mp hx with rfl | hx
      · exact keyLe_refl _
      · simp at hx
    · rename_i mm rr hm
      split at h
      · rename_i hle
        obtain ⟨rfl, rfl⟩ : a = e ∧ es = r := by simpa using h
        intro x hx
        rcases List.mem_cons.mp hx with rfl | hx
        · exact keyLe_refl _
        · exact keyLe_trans hle (ih hm x hx)
      · rename_i hnle
        obtain ⟨rfl, rfl⟩ : mm = e ∧ a :: rr = r := by simpa using h
        intro x hx
        rcases List.mem_cons.mp hx with rfl | hx
        · exact not_keyLe hnle
        · exact ih hm x hx

theorem popMin_rest_perm {l : List Entry} {e : Entry} {r : List Entry}
    (h : popMin l = some (e, r)) : r.Perm (l.erase e) := by
  induction l generalizing e r with
  | nil => simp [popMin] at h
  | cons a es ih =>
    simp only [popMin] at h
    split at h
    · rename_i hm
      obtain ⟨rfl, rfl⟩ : a = e ∧ r = ([] : List Entry) := by simpa using h
      have hes : es = [] := (popMin_none_iff es).mp hm
      subst hes
      simp
    · rename_i mm rr hm
      split at h
      · obtain ⟨rfl, rfl⟩ : a = e ∧ es = r := by simpa using h
        simp [List.erase_cons_head]
      · rename_i hnle
        obtain ⟨rfl, rfl⟩ : mm = e ∧ a :: rr = r := by simpa using h
        have hne : a ≠ mm := by
          intro hae
          exact hnle (hae ▸ keyLe_refl _)
        rw [List.erase_cons_tail]
        · exact List.Perm.cons a (ih hm)
        · simp [hne]

theorem pushNeighbors_not_obstacle (g : Grid) (endp : Cell)
    (obstacles : List Kind) (e : Entry) (visited : List Cell) :
    ∀ (counter : Nat) (ns : List Cell),
      ∀ x ∈ (pushNeighbors g endp obstacles e visited counter ns).1,
        ¬ isObstacle g obstacles x.pos := by
  intro counter ns
  induction ns generalizing counter with
  | nil =>
    intro x hx
    simp [pushNeighbors] at hx
  | cons next rest ih =>
    intro x hx
    by_cases h1 : ¬ inBounds g next
    · rw [pushNeighbors, if_pos h1] at hx
      exact ih counter x hx
    · by_cases h2 : isObstacle g obstacles next ∨ next ∈ visited
      · rw [pushNeighbors, if_neg h1, if_pos h2] at hx
        exact ih counter x hx
      · rw [pushNeighbors, if_neg h1, if_neg h2] at hx
        simp only [] at hx
        rcases hp : pushNeighbors g endp obstacles e visited (counter + 1) rest
          with ⟨more, c'⟩
        rw [hp] at hx
        simp only [] at hx
        rcases List.mem_cons.mp hx with hxe | hxm
        · subst hxe
          intro hobs
          exact h2 (Or.inl hobs)
        · exact ih (counter + 1) x (by rw [hp]; exact hxm)

theorem astarLoop_goal_blocked (g : Grid) (endp : Cell)
    (obstacles : List Kind) (hobs : isObstacle g obstacles endp) :
    ∀ (fuel : Nat) (frontier : List Entry) (visited : List Cell)
      (counter : Nat), (∀ e ∈ frontier, e.pos ≠ endp) →
      astarLoop popMin g endp obstacles fuel frontier visited counter = [] := by
  intro fuel
  induction fuel with
  | zero => intro frontier visited counter _; rfl
  | succ k ih =>
    intro frontier visited counter hfr
    rw [astarLoop]
    cases hsel : popMin frontier with
    | none => rfl
    | some pr =>
      rcases pr with ⟨e, rest⟩
      have hne : e.pos ≠ endp := hfr e (popMin_mem hsel)
      simp only []
      rw [if_neg hne]
      by_cases hv : e.pos ∈ visited
      · rw [if_pos hv]
        exact ih rest visited counter
          (fun x hx => hfr x (popMin_rest_subset hsel x hx))
      · rw [if_neg hv]
        rcases hp : pushNeighbors g endp obstacles e (e.pos :: visited) counter
          (neighborsOf e.pos) with ⟨pushed, c'⟩
        apply ih
        intro x hx
        rcases List.mem_append.mp hx with hxr | hxp
        · exact hfr x (popMin_rest_subset hsel x hxr)
        · intro hxe
          have hno := pushNeighbors_not_obstacle g endp obstacles e
            (e.pos :: visited) counter (neighborsOf e.pos) x
            (by rw [hp]; exact hxp)
          rw [hxe] at hno
          exact hno hobs

/-- A goal cell occupied by a blocking occupant is never pushed onto the
frontier, so `astar` from any other start returns the empty path. -/
theorem astar_to_blocked_goal (g : Grid) (start endp : Cell)
    (obstacles : List Kind) (hobs : isObstacle g obstacles endp)
    (hne : start ≠ endp) :
    astar g start endp obstacles = [] := by
  unfold astar
  apply astarLoop_goal_blocked g endp obstacles hobs
  intro e he
  rcases List.mem_singleton.mp he with rfl
  exact hne

theorem oracleChoice_mem (oracle : Nat → Nat) (i : Nat) (l : List Cell)
    (h : l ≠ []) : oracleChoice oracle i l ∈ l := by
  unfold oracleChoice
  have hlen : 0 < l.length := List.length_pos.mpr h
  have hlt : oracle i % l.length < l.length := Nat.mod_lt _ hlen
  rw [List.getD_eq_getElem _ _ hlt]
  exact List.getElem_mem hlt

theorem genTasks_pickup_mem (sh dp : List Cell) (o : Nat → Nat)
    (hsh : sh ≠ []) :
    ∀ (n i : Nat), ∀ t ∈ genTasks sh dp o n i, t.pickup ∈ sh := by
  intro n
  induction n with
  | zero =>
    intro i t ht
    simp [genTasks] at ht
  | succ k ih =>
    intro i t ht
    simp only [genTasks] at ht
    rcases List.mem_cons.mp ht with rfl | ht
    · exact oracleChoice_mem o i sh hsh
    · exact ih (i + 2) t ht

theorem shelfPositions_shelf (m : Model) (c : Cell)
    (h : c ∈ shelfPositions m) :
    Kind.shelf ∈ kindsAt m.statics m.agvs c := by
  unfold shelfPositions at h
  rcases List.mem_map.mp h with ⟨s, hs, rfl⟩
  have hs2 := List.mem_filter.mp hs
  unfold kindsAt
  apply List.mem_append_left
  apply List.mem_map.mpr
  refine ⟨s, List.mem_filter.mpr ⟨hs2.1, by simp⟩, ?_⟩
  simpa using hs2.2

theorem gridOf_generateTasks (m : Model) (n : Nat) :
    gridOf (generateTasks m n) = gridOf m := by
  unfold generateTasks
  split <;> rfl

theorem gridOf_assign (m : Model) :
    gridOf (assignTaskToAgv m).2 = gridOf m := by
  unfold assignTaskToAgv
  split
  · rfl
  · simp only []
    split
    · rw [gridOf_generateTasks]
      rfl
    · rfl

/-- C4: every dispatcher-generated task has a Shelf occupant on its pickup
cell; paths to pickups are computed with blocking kinds Wall and Shelf, so
for a vehicle positioned anywhere other than the pickup cell the path
computation returns the empty sequence and the idle-dispatch tick ends with
the vehicle back in IDLE and the granted task discarded. -/
theorem dispatcher_tasks_never_start (m : Model) (num : Nat) (a : AGV)
    (t : Task) (rest : List Task) :
    (∀ t' ∈ (generateTasks m num).availableTasks,
      t' ∈ m.availableTasks ∨
        Kind.shelf ∈ kindsAt m.statics m.agvs t'.pickup) ∧
    (m.availableTasks = t :: rest →
      Kind.shelf ∈ kindsAt m.statics m.agvs t.pickup →
      a.state = AgvState.idle →
      ¬ a.battery < lowBatteryThreshold →
      a.pos ≠ t.pickup →
      astar (gridOf m) a.pos t.pickup [Kind.wall, Kind.shelf] = [] ∧
      (agvStep m a).1.state = AgvState.idle ∧
      (agvStep m a).1.task = none) := by
  constructor
  · intro t' ht'
    unfold generateTasks at ht'
    split at ht'
    · exact Or.inl ht'
    · rename_i hcond
      push_neg at hcond
      rcases List.mem_append.mp ht' with h | h
      · exact Or.inl h
      · exact Or.inr (shelfPositions_shelf m _
          (genTasks_pickup_mem _ _ _ hcond.1 _ _ t' h))
  · intro hav hshelf hstate hbat hpos
    have hobs : isObstacle (gridOf m) [Kind.wall, Kind.shelf] t.pickup :=
      ⟨Kind.shelf, hshelf, by simp⟩
    have hastar : astar (gridOf m) a.pos t.pickup [Kind.wall, Kind.shelf] = [] :=
      astar_to_blocked_goal _ _ _ _ hobs hpos
    refine ⟨hastar, ?_⟩
    have hcond : ¬ (a.battery < lowBatteryThreshold ∧
        a.state ≠ AgvState.charging) := fun hc => hbat hc.1
    rw [agvStep, if_neg hcond, hstate]
    unfold handleIdle
    rcases hass : assignTaskToAgv m with ⟨ot, m2⟩
    have hot : ot = some t := by
      have h1 := congrArg Prod.fst hass
      unfold assignTaskToAgv at h1
      rw [hav] at h1
      simpa using h1.symm
    subst hot
    have hm2 : gridOf m2 = gridOf m := by
      have h2 : m2 = (assignTaskToAgv m).2 := by rw [hass]
      rw [h2]
      exact gridOf_assign m
    simp only []
    unfold calculatePathTo
    rw [hm2]
    simp only []
    rw [if_pos hastar]
    exact ⟨rfl, rfl⟩


/-- The task used by the C4 witness: pickup on the shelf cell `(1, 0)`. -/
def taskShelf : Task := { pickup := (1, 0), dropoff := (2, 0) }

/-- An idle, fully charged AGV at `(0, 0)`. -/
def agvIdle : AGV :=
  { id := 0, pos := (0, 0), battery := 100, state := AgvState.idle,
    task := none, path := [], stepsWaiting := 0 }

/-- A 4×1 model with a shelf at `(1, 0)`, a dropoff at `(2, 0)` and the task
`taskShelf` at the head of the backlog. -/
def modelPickupShelf : Model :=
  { width := 4, height := 1,
    statics := [(Kind.shelf, (1, 0)), (Kind.dropoff, (2, 0))],
    agvs := [agvIdle], availableTasks := [taskShelf], completedTasks := 0,
    oracle := fun _ => 0, oracleIdx := 0 }

/-- Witness for C4: the idle vehicle is granted `taskShelf`, whose pickup
cell holds a Shelf; the path computation fails and the tick ends IDLE with
the task discarded. -/
theorem dispatcher_tasks_never_start_witness :
    (modelPickupShelf.availableTasks = [taskShelf] ∧
      Kind.shelf ∈ kindsAt modelPickupShelf.statics modelPickupShelf.agvs
        taskShelf.pickup ∧
      agvIdle.state = AgvState.idle ∧
      ¬ agvIdle.battery < lowBatteryThreshold ∧
      agvIdle.pos ≠ taskShelf.pickup) ∧
    astar (gridOf modelPickupShelf) agvIdle.pos taskShelf.pickup
      [Kind.wall, Kind.shelf] = [] ∧
    (agvStep modelPickupShelf agvIdle).1.state = AgvState.idle ∧
    (agvStep modelPickupShelf agvIdle).1.task = none :=
  ⟨⟨by decide, by decide, by decide, by decide, by decide⟩,
    (dispatcher_tasks_never_start modelPickupShelf 5 agvIdle taskShelf []).2
      (by decide) (by decide) (by decide) (by decide) (by decide)⟩


/-- The behaviour any correct priority-queue pop has on a frontier list:
`none` exactly on the empty frontier, otherwise an entry of minimal
`(f_score, counter)` key together with (some permutation of) the remaining
entries. `popMin` is one such implementation; a binary heap is another. -/
structure PQSpec (sel : List Entry → Option (Entry × List Entry)) : Prop where
  none_iff : ∀ l, sel l = none ↔ l = []
  mem : ∀ l e r, sel l = some (e, r) → e ∈ l
  rest_perm : ∀ l e r, sel l = some (e, r) → r.Perm (l.erase e)
  key_min : ∀ l e r, sel l = some (e, r) →
    ∀ x ∈ l, keyLe (entryKey e) (entryKey x)

theorem popMin_pqspec : PQSpec popMin where
  none_iff := popMin_none_iff
  mem := fun _ _ _ h => popMin_mem h
  rest_perm := fun _ _ _ h => popMin_rest_perm h
  key_min := fun _ _ _ h => popMin_min h

/-- Counter discipline of `astar`'s frontier: every entry's tiebreak counter
is at most the current counter value, and no two entries share a counter.
This is what makes every frontier key unique. -/
def CountersOk (frontier : List Entry) (counter : Nat) : Prop :=
  (∀ e ∈ frontier, e.counter ≤ counter) ∧
    (frontier.map Entry.counter).Nodup

theorem pushNeighbors_counters (g : Grid) (endp : Cell)
    (obstacles : List Kind) (e : Entry) (visited : List Cell) :
    ∀ (counter : Nat) (ns : List Cell),
      counter ≤ (pushNeighbors g endp obstacles e visited counter ns).2 ∧
      (∀ x ∈ (pushNeighbors g endp obstacles e visited counter ns).1,
        counter < x.counter ∧
          x.counter ≤ (pushNeighbors g endp obstacles e visited counter ns).2) ∧
      ((pushNeighbors g endp obstacles e visited counter ns).1.map
        Entry.counter).Nodup := by
  intro counter ns
  induction ns generalizing counter with
  | nil => simp [pushNeighbors]
  | cons next rest ih =>
    by_cases h1 : ¬ inBounds g next
    · rw [pushNeighbors, if_pos h1]
      exact ih counter
    · by_cases h2 : isObstacle g obstacles next ∨ next ∈ visited
      · rw [pushNeighbors, if_neg h1, if_pos h2]
        exact ih counter
      · rw [pushNeighbors, if_neg h1, if_neg h2]
        simp only []
        rcases hp : pushNeighbors g endp obstacles e visited (counter + 1) rest
          with ⟨more, c'⟩
        obtain ⟨ha, hb, hc⟩ := ih (counter + 1)
        rw [hp] at ha hb hc
        simp only [] at ha hb hc ⊢
        refine ⟨by omega, ?_, ?_⟩
        · intro x hx
          rcases List.mem_cons.mp hx with rfl | hxm
          · exact ⟨Nat.lt_succ_self _, ha⟩
          · have := hb x hxm
            omega
        · rw [List.map_cons]
          refine List.nodup_cons.mpr ⟨?_, hc⟩
          intro hmem
          rcases List.mem_map.mp hmem with ⟨x, hxm, hxc⟩
          have := (hb x hxm).1
          simp only [] at hxc
          omega

theorem astarLoop_sel_eq (g : Grid) (endp : Cell) (obstacles : List Kind)
    (sel1 sel2 : List Entry → Option (Entry × List Entry))
    (h1 : PQSpec sel1) (h2 : PQSpec sel2) :
    ∀ (fuel : Nat) (f1 f2 : List Entry) (visited : List Cell)
      (counter : Nat), f1.Perm f2 → CountersOk f1 counter →
      astarLoop sel1 g endp obstacles fuel f1 visited counter =
      astarLoop sel2 g endp obstacles fuel f2 visited counter := by
  intro fuel
  induction fuel with
  | zero => intros; rfl
  | succ k ih =>
    intro f1 f2 visited counter hperm hok
    rw [astarLoop, astarLoop]
    cases hs1 : sel1 f1 with
    | none =>
      have hf1 : f1 = [] := (h1.none_iff f1).mp hs1
      have hf2 : f2 = [] := by
        subst hf1
        exact hperm.symm.eq_nil
      rw [(h2.none_iff f2).mpr hf2]
    | some pr1 =>
      rcases pr1 with ⟨e1, r1⟩
      cases hs2 : sel2 f2 with
      | none =>
        exfalso
        have hf2 : f2 = [] := (h2.none_iff f2).mp hs2
        subst hf2
        have hf1 : f1 = [] := hperm.eq_nil
        subst hf1
        rw [(h1.none_iff []).mpr rfl] at hs1
        simp at hs1
      | some pr2 =>
        rcases pr2 with ⟨e2, r2⟩
        have he1m : e1 ∈ f1 := h1.mem _ _ _ hs1
        have he2m : e2 ∈ f1 := hperm.symm.subset (h2.mem _ _ _ hs2)
        have hk12 : keyLe (entryKey e1) (entryKey e2) :=
          h1.key_min _ _ _ hs1 e2 he2m
        have hk21 : keyLe (entryKey e2) (entryKey e1) :=
          h2.key_min _ _ _ hs2 e1 (hperm.subset he1m)
        have hkeq : entryKey e1 = entryKey e2 := keyLe_antisymm hk12 hk21
        have hceq : e1.counter = e2.counter := congrArg Prod.snd hkeq
        have hee : e1 = e2 := List.inj_on_of_nodup_map hok.2 he1m he2m hceq
        subst hee
        simp only []
        have hr1 : r1.Perm (f1.erase e1) := h1.rest_perm _ _ _ hs1
        have hr2 : r2.Perm (f2.erase e1) := h2.rest_perm _ _ _ hs2
        have hrr : r1.Perm r2 := hr1.trans ((hperm.erase e1).trans hr2.symm)
        have hsub1 : ∀ x ∈ r1, x ∈ f1 := fun x hx =>
          (f1.erase_sublist e1).subset (hr1.subset hx)
        have hokr : CountersOk r1 counter := by
          refine ⟨fun x hx => hok.1 x (hsub1 x hx), ?_⟩
          have hsn : ((f1.erase e1).map Entry.counter).Nodup :=
            hok.2.sublist ((f1.erase_sublist e1).map Entry.counter)
          exact (hr1.map Entry.counter).nodup_iff.mpr hsn
        by_cases hgoal : e1.pos = endp
        · rw [if_pos hgoal, if_pos hgoal]
        · rw [if_neg hgoal, if_neg hgoal]
          by_cases hv : e1.pos ∈ visited
          · rw [if_pos hv, if_pos hv]
            exact ih r1 r2 visited counter hrr hokr
          · rw [if_neg hv, if_neg hv]
            rcases hp : pushNeighbors g endp obstacles e1 (e1.pos :: visited)
              counter (neighborsOf e1.pos) with ⟨pushed, c'⟩
            apply ih
            · exact hrr.append_right pushed
            · obtain ⟨hc1, hc2, hc3⟩ := pushNeighbors_counters g endp obstacles
                e1 (e1.pos :: visited) counter (neighborsOf e1.pos)
              rw [hp] at hc1 hc2 hc3
              simp only [] at hc1 hc2 hc3
              constructor
              · intro x hx
                rcases List.mem_append.mp hx with hxr | hxp
                · exact le_trans (hokr.1 x hxr) hc1
                · exact (hc2 x hxp).2
              · rw [List.map_append]
                refine List.Nodup.append hokr.2 hc3 ?_
                intro c hcr hcp
                rcases List.mem_map.mp hcr with ⟨x, hxm, rfl⟩
                rcases List.mem_map.mp hcp with ⟨y, hym, hyc⟩
                have hxle : x.counter ≤ counter := hokr.1 x hxm
                have hygt : counter < y.counter := (hc2 y hym).1
                omega

/-- C10: the pathfinder is a deterministic function of its inputs — the
result of the A* loop is the same for every priority-queue pop satisfying
`PQSpec` (frontier keys are pairwise distinct, so the minimum is unique and
heap internals cannot influence the result), and in particular equals
`astar`'s reference run; two calls with identical start, goal and blocking
kinds on an unchanged grid return identical sequences. -/
theorem findPath_deterministic
    (sel1 sel2 : List Entry → Option (Entry × List Entry))
    (h1 : PQSpec sel1) (h2 : PQSpec sel2) (g : Grid) (start endp : Cell)
    (obstacles : List Kind) :
    astarLoop sel1 g endp obstacles (fuelBound g)
      [{ f := 0, counter := 0, pos := start, path := [start] }] [] 0 =
    astarLoop sel2 g endp obstacles (fuelBound g)
      [{ f := 0, counter := 0, pos := start, path := [start] }] [] 0 ∧
    astarLoop sel1 g endp obstacles (fuelBound g)
      [{ f := 0, counter := 0, pos := start, path := [start] }] [] 0 =
    astar g start endp obstacles := by
  have hok : CountersOk
      [{ f := 0, counter := 0, pos := start, path := [start] }] 0 := by
    constructor
    · intro e he
      rcases List.mem_singleton.mp he with rfl
      exact le_refl _
    · simp
  constructor
  · exact astarLoop_sel_eq g endp obstacles sel1 sel2 h1 h2 (fuelBound g)
      _ _ [] 0 (List.Perm.refl _) hok
  · exact astarLoop_sel_eq g endp obstacles sel1 popMin h1 popMin_pqspec
      (fuelBound g) _ _ [] 0 (List.Perm.refl _) hok

/-- Witness for C10: with the reference pop itself on the obstacle-free 2×1
grid, the theorem instantiates to the reference run of `astar`. -/
theorem findPath_deterministic_witness :
    PQSpec popMin ∧
    astarLoop popMin openGrid2 (1, 0) [] (fuelBound openGrid2)
      [{ f := 0, counter := 0, pos := ((0 : Int), (0 : Int)),
         path := [((0 : Int), (0 : Int))] }] [] 0 =
      astar openGrid2 (0, 0) (1, 0) [] :=
  ⟨popMin_pqspec,
    (findPath_deterministic popMin popMin popMin_pqspec popMin_pqspec
      openGrid2 (0, 0) (1, 0) []).2⟩

end Warehouse
